import Mathlib

/-!
Verification development for `native-sparse-attention-pytorch`.

We give a shallow embedding of the two source files,
`native_sparse_attention_pytorch/nsa.py` (the `SparseAttention` module) and
`test_triton_nsa.py` (the naive reference `regular_attend` for the fused kernel),
working over exact rationals.

Modelling conventions:

* Scores and features are rationals; a feature vector is a `List ℚ` and one
  (batch, head) slice of a sequence tensor is a `List (List ℚ)` indexed by position.
* The source sets masked attention entries to `-torch.finfo(dtype).max` before
  `softmax`.  Under IEEE float evaluation `exp(sentinel - rowmax)` underflows to
  exactly `0` whenever the row has an unmasked entry, and a row of sentinels only
  has all entries equal, so torch's max-subtracting softmax returns uniform
  weights.  We embed a sentinel-filled score as `none` and reproduce exactly this
  weight structure.
* The exponential applied to unmasked scores is abstracted by a parameter
  `E : ℚ → ℚ`; theorems assume the properties of the real exponential they need
  (strict positivity, and for the online-softmax equivalence the law
  `E (a + b) = E a * E b`).
* `dim_head ** -0.5` is irrational in general, so the attention scale is carried
  as an explicit rational parameter `scale`.
-/

namespace NSA

/-- One position's feature vector. -/
abbrev Vec := List ℚ

/-- One (batch, head) slice of a sequence tensor: a list of position vectors. -/
abbrev Seq := List Vec

/-- Dot product of two feature vectors (an `einsum` over the feature axis). -/
def dot (a b : Vec) : ℚ := (List.zipWith (· * ·) a b).sum

/-- Elementwise vector addition. -/
def vadd (a b : Vec) : Vec := List.zipWith (· + ·) a b

/-- Scalar multiple of a vector. -/
def smul (c : ℚ) (v : Vec) : Vec := v.map (fun x => c * x)

/-- The zero vector of feature dimension `d`. -/
def vzero (d : ℕ) : Vec := List.replicate d 0

/-- Sum of a list of `d`-dimensional vectors. -/
def vsum (d : ℕ) (l : List Vec) : Vec := l.foldr vadd (vzero d)

/-- Matrix-vector product where the matrix is given by its rows
(`nn.Linear` with `bias = False`). -/
def matVec (W : List Vec) (x : Vec) : Vec := W.map (fun row => dot row x)

/-- Sequence the options in a list (how a failing tensor op propagates out of
`forward`). -/
def seqOpt : List (Option α) → Option (List α)
  | [] => some []
  | none :: _ => none
  | some x :: rest => (seqOpt rest).map (fun l => x :: l)

/-- Split a list into `nb` consecutive chunks of size `bs`
(einops `(w n) -> w n` with `n = bs`). -/
def takeBlocks (bs : ℕ) : ℕ → List α → List (List α)
  | 0, _ => []
  | n + 1, x => x.take bs :: takeBlocks bs n (x.drop bs)

/-- Masked softmax weights with the float-underflow semantics of
`masked_fill(mask, -finfo.max)` followed by `softmax` (see the file header):
masked entries (`none`) get weight `0`; an all-masked row gets uniform weights;
an unmasked entry `x` gets `E x` divided by the row sum of `E` over unmasked
entries. -/
def softmaxWeights (E : ℚ → ℚ) (row : List (Option ℚ)) : List ℚ :=
  if row.all Option.isNone then
    row.map (fun _ => (1 : ℚ) / row.length)
  else
    let den := (row.map (fun s => match s with | none => 0 | some x => E x)).sum
    row.map (fun s => match s with | none => 0 | some x => E x / den)

/-! ## Embedding of `SparseAttention` (`nsa.py`)

All tensor operations inside `forward` act independently per batch and per head
(the `Conv1d` compressions use `groups = heads`), so the pipeline is embedded on
one (batch, head) slice; the head axis reappears in `forward` below as a list of
per-head parameter sets. -/

/-- Learned per-head parameters of the compression and memory components
(source lines 114-128).  The conv weight layout is `W[o][t][c]`: output channel
`o`, kernel (intrablock) position `t`, input channel `c`. -/
structure HeadParams where
  memCK : Seq
  memCV : Seq
  kPos : List Vec
  vPos : List Vec
  kW : List (List Vec)
  kB : Vec
  vW : List (List Vec)
  vB : Vec
deriving Inhabited

/-- One output summary vector of the grouped `Conv1d` with
`kernel = stride = compress_block_size`: an affine map of one block. -/
def convBlockOut (W : List (List Vec)) (b : Vec) (blk : List Vec) : Vec :=
  List.zipWith (fun Wo b0 => (List.zipWith dot Wo blk).sum + b0) W b

/-- Source lines 176-180: truncate the sequence to a multiple of `bs`
(`k[..., :compress_divisible_seq_len, :]`), add the intrablock positional bias
(repeated over blocks), and pool each block with the per-head conv
(`k_compress` / `v_compress`).  `List.zipWith` realizes the truncation. -/
def compress (bs : ℕ) (pos : List Vec) (W : List (List Vec)) (b : Vec) (x : Seq) : Seq :=
  let nb := x.length / bs
  let xp := List.zipWith vadd x (List.flatten (List.replicate nb pos))
  (takeBlocks bs nb xp).map (convBlockOut W b)

/-- Source lines 195-196: key positions used by the coarse causal mask, `-1` for
each memory slot and `(c+1)*bs - 1` (the block's closing position) for block `c`. -/
def ckSeqList (numMem nb bs : ℕ) : List ℤ :=
  List.replicate numMem (-1) ++ (List.range nb).map (fun c => ((c : ℤ) + 1) * (bs : ℤ) - 1)

/-- Source lines 191-202, one query row `i`: scaled similarities with
`cmask[i][j] = (ck_seq[j] < i)` and `csim.masked_fill(cmask, mask_value)`,
which fills an entry with the sentinel exactly when `ck_seq[j] < i`. -/
def coarseMaskedRow (scale : ℚ) (qi : Vec) (ckAll : Seq) (cks : List ℤ) (i : ℕ) :
    List (Option ℚ) :=
  List.zipWith (fun kj s => if s < (i : ℤ) then none else some (scale * dot qi kj)) ckAll cks

/-- All coarse masked score rows (`csim` after `masked_fill`). -/
def coarseRows (scale : ℚ) (q : Seq) (ckAll : Seq) (cks : List ℤ) :
    List (List (Option ℚ)) :=
  (List.range q.length).map (fun i => coarseMaskedRow scale (q.getD i []) ckAll cks i)

/-- Source lines 204-206: coarse branch output rows
(`cattn = csim.softmax(-1)`, `einsum(cattn, cv)`). -/
def coarseOut (E : ℚ → ℚ) (d : ℕ) (scale : ℚ) (q ckAll cvAll : Seq) (cks : List ℤ) : Seq :=
  (coarseRows scale q ckAll cks).map
    (fun row => vsum d (List.zipWith smul (softmaxWeights E row) cvAll))

/-- Strict comparison on masked scores: the sentinel is below every unmasked
score (in the source all unmasked scores are finite floats, strictly above
`-finfo.max`). -/
def oGT (a b : Option ℚ) : Bool :=
  match a, b with
  | some x, some y => decide (y < x)
  | some _, none => true
  | none, _ => false

/-- Ordering used to model `topk` (values descending; the tie order among equal
values is unspecified by torch, we fix lower index first, cf. spec section 9). -/
def topRel (a b : ℕ × Option ℚ) : Bool :=
  oGT a.2 b.2 || (a.2 == b.2 && decide (a.1 < b.1))

/-- Top-`K` (index, value) pairs of one importance row, values descending. -/
def topkRowU (K : ℕ) (row : List (Option ℚ)) : List (ℕ × Option ℚ) :=
  (List.insertionSort (fun a b => topRel a b = true) row.enum).take K

/-- Source line 212: `importance_scores.topk(num_selected_blocks, dim = -1)`.
torch checks `k ≤ size(dim)` once for the whole tensor and raises when it fails;
`nb` is that last-dimension size (the number of compressed blocks). -/
def topkAll (K nb : ℕ) (rows : List (List (Option ℚ))) :
    Option (List (List (ℕ × Option ℚ))) :=
  if K ≤ nb then some (rows.map (topkRowU K)) else none

/-- Right-pad a sequence with zero vectors to length `n` (source `pad_at_dim`). -/
def padTo (n d : ℕ) (x : Seq) : Seq := x ++ List.replicate (n - x.length) (vzero d)

/-- Source lines 214, 223, 227 for one query row: the validity flags
`fmask = selected_importance_values > mask_value` (a slot is flagged exactly when
its selected score is unmasked), then `F.pad(fmask, (0, remainder), False)` which
pads the LAST axis — the slot axis — with `remainder` `False` entries, then
`repeat 'b h i w -> b h i (w j)'` with `j = selection_block_size`. -/
def fineMaskRow (bs rem : ℕ) (sel : List (ℕ × Option ℚ)) : List Bool :=
  List.flatten
    (((sel.map (fun p => p.2.isSome)) ++ List.replicate rem false).map
      (fun m => List.replicate bs m))

/-- Source lines 229-230: `einx.get_at` gather of the selected blocks,
concatenated along the sequence axis in slot order. -/
def gatherAt (blocks : List Seq) (sel : List (ℕ × Option ℚ)) : Seq :=
  List.flatten (sel.map (fun p => blocks.getD p.1 []))

/-- `masked_fill(mask, -finfo.max)` on one row: torch requires the mask to be
broadcastable to the tensor; with equal batch axes that is a length check on the
last axis.  Fills an entry with the sentinel exactly where the mask is `True`. -/
def maskedFillWhere (sim : List ℚ) (mask : List Bool) : Option (List (Option ℚ)) :=
  if sim.length = mask.length then
    some (List.zipWith (fun s m => if m then none else some s) sim mask)
  else none

/-- Source lines 229-238 for one query row `i`: gather the selected key/value
blocks, compute scaled similarities, apply `fsim.masked_fill(fmask, mask_value)`
(which fills exactly where the flag is `True`), softmax, and combine values. -/
def fineRowOut (E : ℚ → ℚ) (d : ℕ) (scale : ℚ) (bs rem : ℕ)
    (kBlocks vBlocks : List Seq) (qi : Vec) (sel : List (ℕ × Option ℚ)) : Option Vec :=
  let gk := gatherAt kBlocks sel
  let gv := gatherAt vBlocks sel
  let fsim := gk.map (fun kj => scale * dot qi kj)
  (maskedFillWhere fsim (fineMaskRow bs rem sel)).map
    (fun row => vsum d (List.zipWith smul (softmaxWeights E row) gv))

/-- Modelled from the spec: the external `LocalAttention` module (not part of
this repository) is an exact causal sliding-window attention; query `i` attends
key `j` iff `j ≤ i` and `i - j ≤ win`, matching the in-source flex-attention
mask `create_sliding_mask` (lines 40-50). -/
def slidingRow (scale : ℚ) (win : ℕ) (qi : Vec) (k : Seq) (i : ℕ) : List (Option ℚ) :=
  (List.range k.length).map
    (fun j => if j ≤ i ∧ i - j ≤ win then some (scale * dot qi (k.getD j [])) else none)

/-- Modelled from the spec: output of the sliding-window branch (source line 242
calls the external module). -/
def slidingOut (E : ℚ → ℚ) (d : ℕ) (scale : ℚ) (win : ℕ) (q k v : Seq) : Seq :=
  (List.range q.length).map
    (fun i => vsum d (List.zipWith smul
      (softmaxWeights E (slidingRow scale win (q.getD i []) k i)) v))

/-- The three branch outputs (compressed, fine, local) for one head, per query
position, following `forward` lines 174-242.  `bsC` is `compress_block_size`,
`bsS` is `selection_block_size`, `K` is `num_selected_blocks`. -/
def headBranches (E : ℚ → ℚ) (d bsC bsS K win : ℕ) (scale : ℚ) (hp : HeadParams)
    (q k v : Seq) : Option (List (Vec × Vec × Vec)) :=
  let n := q.length
  let nb := k.length / bsC
  let fineDiv := ((n + bsS - 1) / bsS) * bsS
  let nFine := fineDiv / bsS
  let ck := hp.memCK ++ compress bsC hp.kPos hp.kW hp.kB k
  let cv := hp.memCV ++ compress bsC hp.vPos hp.vW hp.vB v
  let cks := ckSeqList hp.memCK.length nb bsC
  let crows := coarseRows scale q ck cks
  let cOuts := crows.map (fun row => vsum d (List.zipWith smul (softmaxWeights E row) cv))
  let importance := crows.map (fun row => row.drop hp.memCK.length)
  do
    let sels ← topkAll K nb importance
    let kBlocks := takeBlocks bsS nFine (padTo fineDiv d k)
    let vBlocks := takeBlocks bsS nFine (padTo fineDiv d v)
    let rem := fineDiv - n
    let fOuts ← seqOpt ((List.range n).map (fun i =>
      fineRowOut E d scale bsS rem kBlocks vBlocks (q.getD i []) (sels.getD i [])))
    let lOuts := slidingOut E d scale win q k v
    pure ((List.range n).map (fun i => (cOuts.getD i [], fOuts.getD i [], lOuts.getD i [])))

/-- Sigmoid with the exponential abstracted: `sigmoid z = 1 / (1 + E (-z))`. -/
def sigmoid (E : ℚ → ℚ) (z : ℚ) : ℚ := 1 / (1 + E (-z))

/-- Source lines 137-141 (`to_strategy_combine`) for one (post-norm) input
position: linear map to `3 * heads` logits (with bias, `nn.Linear` default),
elementwise sigmoid.  Gate `s` of head `h` sits at index `h * 3 + s`. -/
def strategyGates (E : ℚ → ℚ) (W : List Vec) (b : Vec) (x : Vec) : List ℚ :=
  (List.zipWith (fun row b0 => dot row x + b0) W b).map (sigmoid E)

/-- Source line 248: the gated combination of the three branch outputs for one
head at one position, `einsum('b h n s, s b h n d -> b h n d')`. -/
def combineBranches (d : ℕ) (g3 : List ℚ) (outs : List Vec) : Vec :=
  vsum d (List.zipWith smul g3 outs)

/-- Module parameters.  `normFn` abstracts the per-position prenorm
(`nn.RMSNorm(dim)` or `nn.Identity()`); `Wqkv` is `to_qkv` (no bias); `gateW`,
`gateB` the strategy-combine linear; `outW` is `combine_heads` (no bias). -/
structure ModuleParams where
  normFn : Vec → Vec
  Wqkv : List Vec
  headps : List HeadParams
  gateW : List Vec
  gateB : Vec
  outW : List Vec

/-- Static configuration of the module. -/
structure Config where
  dimHead : ℕ
  slidingWindowSize : ℕ
  compressBlockSize : ℕ
  selectionBlockSize : ℕ
  numSelectedBlocks : ℕ

/-- Slice head `h` of chunk `part` (0 = q, 1 = k, 2 = v) out of the `to_qkv`
output (`chunk(3, dim = -1)` then `split_heads`). -/
def sliceHead (heads dh h part : ℕ) (y : Vec) : Vec :=
  ((y.drop (part * (heads * dh))).drop (h * dh)).take dh

/-- `SparseAttention.forward` (source lines 152-254): prenorm, qkv projection and
head split, the three branches per head, gated combine, head merge, and the
final projection.  Failing tensor ops (`topk` size check, `masked_fill` shape
check) propagate as `none`. -/
def forward (E : ℚ → ℚ) (cfg : Config) (p : ModuleParams) (scale : ℚ) (inp : Seq) :
    Option Seq :=
  let ninp := inp.map p.normFn
  let qkv := ninp.map (fun x => matVec p.Wqkv x)
  let heads := p.headps.length
  let dh := cfg.dimHead
  do
    let branchOuts ← seqOpt ((List.range heads).map (fun h =>
      headBranches E dh cfg.compressBlockSize cfg.selectionBlockSize
        cfg.numSelectedBlocks cfg.slidingWindowSize scale (p.headps.getD h default)
        (qkv.map (sliceHead heads dh h 0)) (qkv.map (sliceHead heads dh h 1))
        (qkv.map (sliceHead heads dh h 2))))
    let gates := ninp.map (strategyGates E p.gateW p.gateB)
    let merged := (List.range inp.length).map (fun i =>
      List.flatten ((List.range heads).map (fun h =>
        let bo := (branchOuts.getD h []).getD i ([], [], [])
        combineBranches dh
          [(gates.getD i []).getD (h * 3) 0, (gates.getD i []).getD (h * 3 + 1) 0,
            (gates.getD i []).getD (h * 3 + 2) 0]
          [bo.1, bo.2.1, bo.2.2])))
    pure (merged.map (fun x => matVec p.outW x))

/-- `SparseAttention.__init__` checks, source lines 89 and 112, in source order:
`assert compress_block_size == selection_block_size` and
`assert num_compressed_mem_kv > 0`. -/
def initChecks (compressBlockSize selectionBlockSize : ℕ) (numCompressedMemKV : ℤ) :
    Except String Unit :=
  if compressBlockSize = selectionBlockSize then
    if 0 < numCompressedMemKV then Except.ok ()
    else Except.error "AssertionError: num_compressed_mem_kv > 0"
  else Except.error "AssertionError: start off with compressed being equal to selection block sizes"

end NSA



namespace NSA

/-- Constant-one exponential surrogate: strictly positive and multiplicative
(`1 = 1 * 1`), used to instantiate the abstract exponential in concrete
evaluations.  The evaluations below only exercise rows whose softmax weights are
independent of the choice of `E` (all-sentinel rows, or rows with a single
unmasked entry), so they reflect the floating-point program faithfully. -/
def E1 : ℚ → ℚ := fun _ => 1

set_option maxHeartbeats 2000000 in
/-- C1 (refuted by the code): causality fails for the fine branch.  Block sizes
2, one selected block, query position 0: perturbing only the VALUE at position 1
(strictly greater than 0) changes the fine-branch output at position 0 from [0]
to [1].  Line 214 builds `fmask` as the valid-slot flags, but line 234
`fsim.masked_fill(fmask, mask_value)` sentinels exactly the valid slots, so the
row becomes all-sentinel and torch's softmax attends uniformly — including the
future position 1 inside the selected block. -/
theorem claim1_fine_branch_not_causal :
    (headBranches E1 1 2 2 1 1 1
        ⟨[[0]], [[5]], [[0], [0]], [[0], [0]], [[[1], [1]]], [0], [[[1], [1]]], [0]⟩
        [[1], [1]] [[1], [1]] [[0], [0]]).map (fun l => (l.getD 0 ([], [], [])).2.1)
      = some [0]
  ∧ (headBranches E1 1 2 2 1 1 1
        ⟨[[0]], [[5]], [[0], [0]], [[0], [0]], [[[1], [1]]], [0], [[[1], [1]]], [0]⟩
        [[1], [1]] [[1], [1]] [[0], [2]]).map (fun l => (l.getD 0 ([], [], [])).2.1)
      = some [1] := by
  constructor <;>
  norm_num [headBranches, compress, convBlockOut, takeBlocks, ckSeqList, coarseRows,
    coarseMaskedRow, softmaxWeights, topkAll, topkRowU, topRel, oGT, padTo, fineMaskRow,
    gatherAt, maskedFillWhere, fineRowOut, slidingRow, slidingOut, seqOpt, dot, vadd,
    smul, vzero, vsum, E1, List.insertionSort, List.orderedInsert, List.enum,
    List.enumFrom, List.replicate, List.range_succ, List.range_zero]

/-- C2 (refuted by the code): the coarse visibility boundary is inverted.  With
one compressed block of size 2 and query position 0: the memory entry (always
attendable per the claim) receives softmax weight 0, while block 0 — whose
closing position (0+1)*2-1 = 1 is NOT `< 0` and so must receive zero weight per
the claim — receives weight 1.  `cmask[i][j] = ck_seq[j] < i` is the visibility
mask, and line 202 `csim.masked_fill(cmask, mask_value)` sentinels exactly the
visible entries. -/
theorem claim2_coarse_mask_inverted :
    softmaxWeights E1 (coarseMaskedRow 1 [1] [[0], [3]] (ckSeqList 1 1 2) 0) = [0, 1]
  ∧ ¬ ((0 + 1) * (2 : ℤ) - 1 < (0 : ℤ)) := by
  constructor
  · norm_num [softmaxWeights, coarseMaskedRow, ckSeqList, dot, E1, List.replicate, List.range_succ, List.range_zero]
  · norm_num

/-- C3 (refuted by the code): at query position 0 the Selector returns block 0
as a VALID slot (its selected importance score is unmasked, i.e. above the
sentinel) even though block 0's last position (0+1)*2-1 = 1 is ≥ 0.  This is a
direct consequence of the inverted coarse mask: causally INVISIBLE blocks keep
their raw scores and are therefore flagged valid. -/
theorem claim3_selector_flags_future_block :
    (topkAll 1 1 [(coarseMaskedRow 1 [1] [[0], [4]] (ckSeqList 1 1 2) 0).drop 1]).map
        (fun sels => (sels.getD 0 []).map (fun p => (p.1, p.2.isSome))) = some [(0, true)]
  ∧ ¬ ((0 + 1) * (2 : ℤ) - 1 < (0 : ℤ)) := by
  constructor
  · norm_num [topkAll, topkRowU, topRel, oGT, coarseMaskedRow, ckSeqList, dot,
      List.insertionSort, List.orderedInsert, List.enum, List.enumFrom, List.replicate, List.range_succ, List.range_zero]
  · norm_num

/-- C5 (refuted by the code): at query position 0 the coarse output is a
combination of ONLY the compressed-block values, not the memory values: the
memory entry gets weight 0 (it is sentinel-filled, since `-1 < 0`) and the
output equals the block-0 value summary [9], not the memory value [5]. -/
theorem claim5_memory_not_visible_at_zero :
    coarseOut E1 1 1 [[1]] [[2], [6]] [[5], [9]] (ckSeqList 1 1 2) = [[9]]
  ∧ softmaxWeights E1 (coarseMaskedRow 1 [1] [[2], [6]] (ckSeqList 1 1 2) 0) = [0, 1] := by
  constructor <;>
  norm_num [coarseOut, coarseRows, coarseMaskedRow, softmaxWeights, ckSeqList, dot,
    vadd, smul, vzero, vsum, E1, List.replicate, List.range_succ, List.range_zero,
    Option.some_ne_none, Option.isNone]

set_option maxHeartbeats 2000000 in
/-- C7 (refuted by the code): at query position 0 no causally valid block exists
(block 0 closes at position 1 ≥ 0), so the claim requires a zero fine-branch
contribution.  The code instead flags block 0 valid, the inverted fine
`masked_fill` sentinels the whole gathered row, and the uniform softmax returns
the MEAN of block 0's values — here [3/2] ≠ [0] — which moreover depends on the
future value at position 1. -/
theorem claim7_fine_not_zero_without_valid_blocks :
    (headBranches E1 1 2 2 1 1 1
        ⟨[[0]], [[4]], [[0], [0]], [[0], [0]], [[[1], [1]]], [0], [[[1], [1]]], [0]⟩
        [[1], [1]] [[1], [1]] [[1], [2]]).map (fun l => (l.getD 0 ([], [], [])).2.1)
      = some [3 / 2]
  ∧ [(3 : ℚ) / 2] ≠ [0] := by
  constructor
  · norm_num [headBranches, compress, convBlockOut, takeBlocks, ckSeqList, coarseRows,
      coarseMaskedRow, softmaxWeights, topkAll, topkRowU, topRel, oGT, padTo, fineMaskRow,
      gatherAt, maskedFillWhere, fineRowOut, slidingRow, slidingOut, seqOpt, dot, vadd,
      smul, vzero, vsum, E1, List.insertionSort, List.orderedInsert, List.enum,
      List.enumFrom, List.replicate, List.range_succ, List.range_zero]
  · norm_num

set_option maxHeartbeats 4000000 in
/-- C6 (refuted by the code): shape preservation fails on the padding path.
With block size 2, an input of length 2 (divisible) succeeds and preserves the
shape, but an input of length 3 (not divisible) makes `forward` raise: line 223
`F.pad(fmask, (0, remainder), False)` pads the SLOT axis instead of the sequence
axis, so after the `repeat` on line 227 the mask has (K + remainder) * bs = 4
entries while `fsim` has K * bs = 2, and `masked_fill` on line 234 fails its
shape check. -/
theorem claim6_nondivisible_length_fails :
    forward E1 ⟨1, 1, 2, 2, 1⟩
        ⟨id, [[1], [1], [1]],
          [⟨[[0]], [[5]], [[0], [0]], [[0], [0]], [[[1], [1]]], [0], [[[1], [1]]], [0]⟩],
          [[0], [0], [0]], [0, 0, 0], [[1]]⟩ 1 [[1], [1], [1]] = none
  ∧ (forward E1 ⟨1, 1, 2, 2, 1⟩
        ⟨id, [[1], [1], [1]],
          [⟨[[0]], [[5]], [[0], [0]], [[0], [0]], [[[1], [1]]], [0], [[[1], [1]]], [0]⟩],
          [[0], [0], [0]], [0, 0, 0], [[1]]⟩ 1 [[1], [1]]).map
      (fun out => (out.length, out.all (fun r => r.length = 1))) = some (2, true) := by
  constructor <;>
  norm_num [forward, headBranches, compress, convBlockOut, takeBlocks, ckSeqList,
    coarseRows, coarseMaskedRow, softmaxWeights, topkAll, topkRowU, topRel, oGT, padTo,
    fineMaskRow, gatherAt, maskedFillWhere, fineRowOut, slidingRow, slidingOut, seqOpt,
    dot, vadd, smul, vzero, vsum, matVec, sliceHead, strategyGates, sigmoid,
    combineBranches, E1, List.insertionSort, List.orderedInsert, List.enum,
    List.enumFrom, List.replicate, List.range_succ, List.range_zero]


/-- Adding the zero vector of dimension `d` on the left is the identity on
vectors of length `d`. -/
theorem vadd_vzero_left : ∀ (d : ℕ) (l : Vec), l.length = d → vadd (vzero d) l = l := by
  intro d
  induction d with
  | zero =>
    intro l h
    rw [List.length_eq_zero] at h
    subst h
    rfl
  | succ d ih =>
    intro l h
    cases l with
    | nil => simp at h
    | cons a t =>
      have ht : t.length = d := by simpa using h
      show (0 + a) :: vadd (vzero d) t = a :: t
      rw [zero_add, ih t ht]

/-- Scaling a vector by zero gives the zero vector of its length. -/
theorem smul_zero_eq_vzero : ∀ v : Vec, smul 0 v = vzero v.length := by
  intro v
  induction v with
  | nil => rfl
  | cons a t ih =>
    show (0 * a) :: smul 0 t = vzero (t.length + 1)
    rw [zero_mul, ih]
    rfl

/-- C9 (confirmed): every strategy-gate component is a sigmoid of the learned
linear logits and hence lies in [0, 1] for any strictly positive exponential;
and the per-head gated combination (source line 248) with all gates set to zero
is the zero vector — so the pre-`combine_heads` output vanishes. -/
theorem claim9_gate_bounds_and_zero_annihilation (E : ℚ → ℚ) (hE : ∀ x, 0 < E x)
    (W : List Vec) (b : Vec) (x : Vec) :
    (∀ g ∈ strategyGates E W b x, 0 ≤ g ∧ g ≤ 1)
  ∧ (∀ (d : ℕ) (outs : List Vec), (∀ o ∈ outs, o.length = d) →
      combineBranches d (List.replicate outs.length 0) outs = vzero d) := by
  constructor
  · intro g hg
    rw [strategyGates, List.mem_map] at hg
    obtain ⟨z, _, rfl⟩ := hg
    unfold sigmoid
    have h1 : (0 : ℚ) < 1 + E (-z) := by have := hE (-z); linarith
    refine ⟨div_nonneg zero_le_one h1.le, ?_⟩
    rw [div_le_one h1]
    have := hE (-z)
    linarith
  · intro d outs
    induction outs with
    | nil => intro _; rfl
    | cons o t ih =>
      intro h
      have ho : o.length = d := h o (List.mem_cons_self o t)
      have ht := fun o2 ho2 => h o2 (List.mem_cons_of_mem _ ho2)
      show vadd (smul 0 o) (combineBranches d (List.replicate t.length 0) t) = vzero d
      rw [ih ht, smul_zero_eq_vzero, ho]
      exact vadd_vzero_left d (vzero d) (by simp [vzero])

/-- Witness for C9, at the constant-one exponential, concrete gate parameters,
and two concrete branch outputs of dimension 1. -/
theorem claim9_gate_bounds_and_zero_annihilation_witness :
    (∀ g ∈ strategyGates E1 [[1], [2], [3]] [0, 0, 0] [1], 0 ≤ g ∧ g ≤ 1)
  ∧ combineBranches 1 (List.replicate 2 0) [[5], [7]] = vzero 1 := by
  have h := claim9_gate_bounds_and_zero_annihilation E1 (fun x => by norm_num [E1])
    [[1], [2], [3]] [0, 0, 0] [1]
  refine ⟨h.1, ?_⟩
  have h2 := h.2 1 [[5], [7]] ?_
  · simpa using h2
  · intro o ho
    simp at ho
    rcases ho with rfl | rfl <;> rfl

/-- With at least one head, if the number of full compressed blocks is below
`num_selected_blocks` then the `topk` size check inside the first head fails and
`forward` propagates the failure. -/
theorem forward_none_of_too_few_blocks (E : ℚ → ℚ) (cfg : Config) (p : ModuleParams)
    (scale : ℚ) (inp : Seq) (hh : p.headps ≠ [])
    (hlt : inp.length / cfg.compressBlockSize < cfg.numSelectedBlocks) :
    forward E cfg p scale inp = none := by
  obtain ⟨hp0, l, hl⟩ : ∃ a l, p.headps = a :: l := by
    cases hps : p.headps with
    | nil => exact absurd hps hh
    | cons a l => exact ⟨a, l, rfl⟩
  simp only [forward, hl, List.length_cons, List.range_succ_eq_map, List.map_cons,
    headBranches, topkAll, List.length_map]
  rw [if_neg (Nat.not_le.mpr hlt)]
  simp [seqOpt]

/-- C10 (confirmed): the forward call only succeeds when the number of full
compressed blocks, `seqLen / compressBlockSize`, is at least
`numSelectedBlocks`; with fewer full blocks the `topk` raises instead of
returning fewer than K slots. -/
theorem claim10_forward_needs_enough_blocks (E : ℚ → ℚ) (cfg : Config)
    (p : ModuleParams) (scale : ℚ) (inp : Seq) (hh : p.headps ≠ []) :
    (inp.length / cfg.compressBlockSize < cfg.numSelectedBlocks →
      forward E cfg p scale inp = none)
  ∧ (∀ out, forward E cfg p scale inp = some out →
      cfg.numSelectedBlocks ≤ inp.length / cfg.compressBlockSize) := by
  refine ⟨forward_none_of_too_few_blocks E cfg p scale inp hh, ?_⟩
  intro out hsome
  by_contra hle
  rw [forward_none_of_too_few_blocks E cfg p scale inp hh (Nat.not_le.mp hle)] at hsome
  exact Option.noConfusion hsome

/-- Witness for C10: with compress block size 2 a length-1 input has 0 full
blocks, fewer than the 1 required selected block, and `forward` fails. -/
theorem claim10_forward_needs_enough_blocks_witness :
    forward E1 ⟨1, 1, 2, 2, 1⟩
      ⟨id, [[1], [1], [1]],
        [⟨[[0]], [[5]], [[0], [0]], [[0], [0]], [[[1], [1]]], [0], [[[1], [1]]], [0]⟩],
        [[0], [0], [0]], [0, 0, 0], [[1]]⟩ 1 [[1]] = none :=
  (claim10_forward_needs_enough_blocks E1 ⟨1, 1, 2, 2, 1⟩
      ⟨id, [[1], [1], [1]],
        [⟨[[0]], [[5]], [[0], [0]], [[0], [0]], [[[1], [1]]], [0], [[[1], [1]]], [0]⟩],
        [[0], [0], [0]], [0, 0, 0], [[1]]⟩ 1 [[1]] (by simp)).1 (by norm_num)

/-- C8 (confirmed): construction fails fast with the named assertion errors, in
source order, and succeeds exactly when both configuration constraints hold —
never proceeding silently under a violation. -/
theorem claim8_fail_fast_construction :
    (∀ (cbs sbs : ℕ) (mem : ℤ), cbs ≠ sbs →
      initChecks cbs sbs mem = Except.error
        "AssertionError: start off with compressed being equal to selection block sizes")
  ∧ (∀ (cbs : ℕ) (mem : ℤ), mem ≤ 0 →
      initChecks cbs cbs mem = Except.error "AssertionError: num_compressed_mem_kv > 0")
  ∧ (∀ (cbs sbs : ℕ) (mem : ℤ),
      initChecks cbs sbs mem = Except.ok () ↔ (cbs = sbs ∧ 0 < mem)) := by
  refine ⟨?_, ?_, ?_⟩
  · intro cbs sbs mem h
    rw [initChecks, if_neg h]
  · intro cbs mem h
    rw [initChecks, if_pos rfl, if_neg (not_lt.mpr h)]
  · intro cbs sbs mem
    rw [initChecks]
    split_ifs with h1 h2
    · simp [h1, h2]
    · simp [h2]
    · simp [h1]

/-- Witness for C8: the two violations raise their named errors, and a valid
configuration is accepted. -/
theorem claim8_fail_fast_construction_witness :
    initChecks 2 3 4 = Except.error
      "AssertionError: start off with compressed being equal to selection block sizes"
  ∧ initChecks 2 2 0 = Except.error "AssertionError: num_compressed_mem_kv > 0"
  ∧ (initChecks 2 2 4 = Except.ok () ↔ (2 = 2 ∧ (0 : ℤ) < 4)) :=
  ⟨claim8_fail_fast_construction.1 2 3 4 (by norm_num),
   claim8_fail_fast_construction.2.1 2 0 (by norm_num),
   claim8_fail_fast_construction.2.2 2 2 4⟩


/-! ## Embedding of `test_triton_nsa.py` and the fused-kernel contract (C4)

The fused Triton kernel itself (`native_sparse_attend`) is not part of the
sources; only its caller and the naive reference `regular_attend` are.  Per the
spec (sections 4.7 and 5) the fused path is a pure reformulation of the same
mathematical function computed as a tiled, online-softmax reduction with an
associative merge of running (max, sum, weighted-sum) statistics; we model it
from those words below and prove it equivalent to the embedded naive reference.

Both evaluators decompose over batch, kv-head, query-head group, query position
and output component, so rows are handled as lists of scored value components. -/

/-- A scored value entry of one attention row: the (possibly sentinel-masked)
score paired with one component of the corresponding value vector. -/
abbrev SV := Option ℚ × ℚ

/-- Sum of `E` over the unmasked scores of a row. -/
def denOf (E : ℚ → ℚ) (svs : List SV) : ℚ :=
  (svs.map (fun e => match e.1 with | none => 0 | some s => E s)).sum

/-- Sum of `E`-weighted value components over the unmasked entries of a row. -/
def numOf (E : ℚ → ℚ) (svs : List SV) : ℚ :=
  (svs.map (fun e => match e.1 with | none => 0 | some s => E s * e.2)).sum

/-- One output component of the naive, fully materialized reference: softmax
weights of the masked score row (same float-underflow semantics as
`softmaxWeights`) contracted with the value components
(`attn = sim.softmax(dim=-1)` and the `einsum` with `v`, test lines 73-78). -/
def softAttendC (E : ℚ → ℚ) (svs : List SV) : ℚ :=
  (List.zipWith (· * ·) (softmaxWeights E (svs.map (fun e => e.1)))
    (svs.map (fun e => e.2))).sum

theorem zipWith_mul_map (f g2 : SV → ℚ) : ∀ svs : List SV,
    List.zipWith (· * ·) (svs.map f) (svs.map g2) = svs.map (fun e => f e * g2 e) := by
  intro svs
  induction svs with
  | nil => rfl
  | cons e t ih => simp [ih]

/-- Closed form of `softAttendC`: uniform mean on an all-masked row, otherwise
the quotient of the exponential-weighted sums. -/
theorem softAttendC_eq (E : ℚ → ℚ) (svs : List SV) :
    softAttendC E svs =
      if svs.all (fun e => e.1.isNone) then (svs.map (fun e => e.2)).sum / svs.length
      else numOf E svs / denOf E svs := by
  unfold softAttendC softmaxWeights
  have hfst : (svs.map (fun e => e.1)).all Option.isNone = svs.all (fun e => e.1.isNone) := by
    induction svs with
    | nil => rfl
    | cons e t ih => simp only [List.map_cons, List.all_cons, ih]
  rw [hfst]
  by_cases hall : svs.all (fun e => e.1.isNone)
  · rw [if_pos hall, if_pos hall]
    rw [List.map_map, List.length_map]
    have : (svs.map ((fun _ => (1 : ℚ) / svs.length) ∘ (fun e => e.1)))
        = svs.map (fun _ => (1 : ℚ) / svs.length) := rfl
    rw [this, zipWith_mul_map (fun _ => (1 : ℚ) / svs.length) (fun e => e.2)]
    have : svs.map (fun e => 1 / (svs.length : ℚ) * e.2)
        = svs.map (fun e => (1 / (svs.length : ℚ)) * (fun e2 : SV => e2.2) e) := rfl
    rw [this, List.sum_map_mul_left, one_div_mul_eq_div]
  · rw [if_neg hall, if_neg hall]
    rw [List.map_map]
    have hden : ((svs.map (fun e => e.1)).map
        (fun s => match s with | none => (0 : ℚ) | some x => E x)).sum = denOf E svs := by
      rw [List.map_map]
      rfl
    rw [hden]
    have hcomp : (svs.map ((fun s => match s with
          | none => (0 : ℚ)
          | some x => E x / denOf E svs) ∘ (fun e => e.1)))
        = svs.map (fun e => match e.1 with
          | none => (0 : ℚ)
          | some x => E x / denOf E svs) := rfl
    rw [hcomp, zipWith_mul_map]
    have hpt : svs.map (fun e => (match e.1 with
          | none => (0 : ℚ)
          | some x => E x / denOf E svs) * e.2)
        = svs.map (fun e => (match e.1 with
          | none => (0 : ℚ)
          | some x => E x * e.2) * (denOf E svs)⁻¹) := by
      refine List.map_congr_left ?_
      intro e _
      cases h1 : e.1 with
      | none => simp
      | some x => simp [div_mul_eq_mul_div, div_eq_mul_inv, mul_assoc, mul_comm e.2]
    rw [hpt]
    have : svs.map (fun e => (match e.1 with
          | none => (0 : ℚ)
          | some x => E x * e.2) * (denOf E svs)⁻¹)
        = svs.map (fun e => (fun e2 : SV => match e2.1 with
          | none => (0 : ℚ)
          | some x => E x * e2.2) e * (denOf E svs)⁻¹) := rfl
    rw [this, List.sum_map_mul_right]
    rw [div_eq_mul_inv]
    rfl


/-- Modelled from the spec (section 5): the online-softmax accumulator of the
fused kernel — running maximum `m` over the unmasked scores seen so far (`none`
before any unmasked score), running sum `l` of `E (s - m)`, and running weighted
sum `a` of `E (s - m) * v` for one value component. -/
structure OState where
  m : Option ℚ
  l : ℚ
  a : ℚ

/-- Modelled from the spec: processing one scored entry — masked entries are
skipped; an unmasked one updates the running maximum and rescales the running
sums to it before accumulating. -/
def ostep (E : ℚ → ℚ) (st : OState) (e : SV) : OState :=
  match e.1 with
  | none => st
  | some s =>
    match st.m with
    | none => ⟨some s, E (s - s), E (s - s) * e.2⟩
    | some m =>
      ⟨some (max m s), st.l * E (m - max m s) + E (s - max m s),
        st.a * E (m - max m s) + E (s - max m s) * e.2⟩

/-- Modelled from the spec: within-tile accumulation of one candidate tile. -/
def tileStats (E : ℚ → ℚ) (tile : List SV) : OState :=
  tile.foldl (ostep E) ⟨none, 0, 0⟩

/-- Modelled from the spec: the associative merge rule combining the statistics
of two tiles, rescaling both sides to the joint running maximum. -/
def omerge (E : ℚ → ℚ) : OState → OState → OState
  | ⟨none, _, _⟩, t => t
  | s, ⟨none, _, _⟩ => s
  | ⟨some m1, l1, a1⟩, ⟨some m2, l2, a2⟩ =>
      ⟨some (max m1 m2), l1 * E (m1 - max m1 m2) + l2 * E (m2 - max m1 m2),
        a1 * E (m1 - max m1 m2) + a2 * E (m2 - max m1 m2)⟩

/-- Modelled from the spec: the fused evaluation of one attention row — merge
the per-tile statistics and finish with `a / l` (the tiles of one row may be
visited in any order; the merge is associative up to the represented sums). -/
def onlineRow (E : ℚ → ℚ) (tiles : List (List SV)) : ℚ :=
  let st := (tiles.map (tileStats E)).foldl (omerge E) ⟨none, 0, 0⟩
  match st.m with
  | none => 0
  | some _ => st.a / st.l

/-- Meaning of an accumulator state relative to the entries it has seen: `l`
and `a` are the sentinel-free exponential sums rescaled by `E m`. -/
def ReprOf (E : ℚ → ℚ) (svs : List SV) (st : OState) : Prop :=
  match st.m with
  | none => (∀ e ∈ svs, e.1 = none) ∧ st.l = 0 ∧ st.a = 0
  | some m => st.l * E m = denOf E svs ∧ st.a * E m = numOf E svs

theorem denOf_append (E : ℚ → ℚ) (xs ys : List SV) :
    denOf E (xs ++ ys) = denOf E xs + denOf E ys := by
  simp [denOf]

theorem numOf_append (E : ℚ → ℚ) (xs ys : List SV) :
    numOf E (xs ++ ys) = numOf E xs + numOf E ys := by
  simp [numOf]

theorem denOf_eq_zero_of_all_none (E : ℚ → ℚ) (svs : List SV)
    (h : ∀ e ∈ svs, e.1 = none) : denOf E svs = 0 := by
  refine List.sum_eq_zero ?_
  intro x hx
  rw [List.mem_map] at hx
  obtain ⟨e, he, rfl⟩ := hx
  rw [h e he]

theorem numOf_eq_zero_of_all_none (E : ℚ → ℚ) (svs : List SV)
    (h : ∀ e ∈ svs, e.1 = none) : numOf E svs = 0 := by
  refine List.sum_eq_zero ?_
  intro x hx
  rw [List.mem_map] at hx
  obtain ⟨e, he, rfl⟩ := hx
  rw [h e he]

theorem denOf_nonneg (E : ℚ → ℚ) (hE : ∀ x, 0 < E x) (svs : List SV) :
    0 ≤ denOf E svs := by
  refine List.sum_nonneg ?_
  intro x hx
  rw [List.mem_map] at hx
  obtain ⟨e, he, rfl⟩ := hx
  cases e.1 with
  | none => exact le_refl 0
  | some s => exact (hE s).le

theorem denOf_pos (E : ℚ → ℚ) (hE : ∀ x, 0 < E x) (svs : List SV) (e : SV)
    (he : e ∈ svs) (s : ℚ) (hs : e.1 = some s) : 0 < denOf E svs := by
  have hmem : (match e.1 with | none => (0 : ℚ) | some s2 => E s2)
      ∈ svs.map (fun e2 => match e2.1 with | none => (0 : ℚ) | some s2 => E s2) :=
    List.mem_map_of_mem _ he
  have hval : (match e.1 with | none => (0 : ℚ) | some s2 => E s2) = E s := by rw [hs]
  have hnn : ∀ x ∈ svs.map (fun e2 => match e2.1 with | none => (0 : ℚ) | some s2 => E s2),
      0 ≤ x := by
    intro x hx
    rw [List.mem_map] at hx
    obtain ⟨e2, _, rfl⟩ := hx
    cases e2.1 with
    | none => exact le_refl 0
    | some s2 => exact (hE s2).le
  have := List.single_le_sum hnn _ hmem
  rw [hval] at this
  exact lt_of_lt_of_le (hE s) this

theorem ReprOf_ostep (E : ℚ → ℚ) (hmul : ∀ a b, E (a + b) = E a * E b)
    (svs : List SV) (st : OState) (e : SV) (h : ReprOf E svs st) :
    ReprOf E (svs ++ [e]) (ostep E st e) := by
  have key : ∀ a b : ℚ, E (a - b) * E b = E a := by
    intro a b
    rw [← hmul, sub_add_cancel]
  obtain ⟨m, l, a⟩ := st
  obtain ⟨s1, v⟩ := e
  cases s1 with
  | none =>
    cases m with
    | none =>
      obtain ⟨hall, hl, ha⟩ := h
      refine ⟨?_, hl, ha⟩
      intro e2 h2
      rcases List.mem_append.mp h2 with h3 | h3
      · exact hall e2 h3
      · rw [List.mem_singleton.mp h3]
    | some m0 =>
      obtain ⟨hl, ha⟩ := h
      dsimp only at hl ha
      dsimp only [ostep]
      refine ⟨?_, ?_⟩
      · rw [denOf_append, hl]
        simp [denOf]
      · rw [numOf_append, ha]
        simp [numOf]
  | some s =>
    cases m with
    | none =>
      obtain ⟨hall, hl, ha⟩ := h
      dsimp only [ostep]
      refine ⟨?_, ?_⟩
      · rw [denOf_append, denOf_eq_zero_of_all_none E svs hall, key s s]
        simp [denOf]
      · calc E (s - s) * v * E s = (E (s - s) * E s) * v := by ring
          _ = E s * v := by rw [key]
          _ = numOf E svs + (E s * v + 0) := by
              rw [numOf_eq_zero_of_all_none E svs hall]; ring
          _ = numOf E (svs ++ [(some s, v)]) := by rw [numOf_append]; simp [numOf]
    | some m0 =>
      obtain ⟨hl, ha⟩ := h
      dsimp only at hl ha
      dsimp only [ostep]
      refine ⟨?_, ?_⟩
      · calc (l * E (m0 - max m0 s) + E (s - max m0 s)) * E (max m0 s)
            = l * (E (m0 - max m0 s) * E (max m0 s))
              + E (s - max m0 s) * E (max m0 s) := by ring
          _ = l * E m0 + E s := by rw [key, key]
          _ = denOf E svs + E s := by rw [hl]
          _ = denOf E (svs ++ [(some s, v)]) := by rw [denOf_append]; simp [denOf]
      · calc (a * E (m0 - max m0 s) + E (s - max m0 s) * v) * E (max m0 s)
            = a * (E (m0 - max m0 s) * E (max m0 s))
              + (E (s - max m0 s) * E (max m0 s)) * v := by ring
          _ = a * E m0 + E s * v := by rw [key, key]
          _ = numOf E svs + E s * v := by rw [ha]
          _ = numOf E (svs ++ [(some s, v)]) := by rw [numOf_append]; simp [numOf]

theorem ReprOf_foldl (E : ℚ → ℚ) (hmul : ∀ a b, E (a + b) = E a * E b) :
    ∀ (tile : List SV) (svs : List SV) (st : OState), ReprOf E svs st →
      ReprOf E (svs ++ tile) (tile.foldl (ostep E) st) := by
  intro tile
  induction tile with
  | nil =>
    intro svs st h
    simpa using h
  | cons e t ih =>
    intro svs st h
    have h2 := ReprOf_ostep E hmul svs st e h
    have h3 := ih (svs ++ [e]) (ostep E st e) h2
    rw [List.append_assoc] at h3
    simpa using h3

theorem ReprOf_tileStats (E : ℚ → ℚ) (hmul : ∀ a b, E (a + b) = E a * E b)
    (tile : List SV) : ReprOf E tile (tileStats E tile) := by
  have h0 : ReprOf E [] (⟨none, 0, 0⟩ : OState) := ⟨fun e h => absurd h (List.not_mem_nil e), rfl, rfl⟩
  simpa using ReprOf_foldl E hmul tile [] ⟨none, 0, 0⟩ h0

theorem ReprOf_omerge (E : ℚ → ℚ) (hmul : ∀ a b, E (a + b) = E a * E b)
    (xs ys : List SV) (s t : OState) (hs : ReprOf E xs s) (ht : ReprOf E ys t) :
    ReprOf E (xs ++ ys) (omerge E s t) := by
  have key : ∀ a b : ℚ, E (a - b) * E b = E a := by
    intro a b
    rw [← hmul, sub_add_cancel]
  obtain ⟨m1, l1, a1⟩ := s
  obtain ⟨m2, l2, a2⟩ := t
  cases m1 with
  | none =>
    obtain ⟨hall1, hl1, ha1⟩ := hs
    cases m2 with
    | none =>
      obtain ⟨hall2, hl2, ha2⟩ := ht
      refine ⟨?_, hl2, ha2⟩
      intro e he
      rcases List.mem_append.mp he with h3 | h3
      · exact hall1 e h3
      · exact hall2 e h3
    | some mm =>
      obtain ⟨hl2, ha2⟩ := ht
      dsimp only at hl2 ha2
      dsimp only [omerge]
      refine ⟨?_, ?_⟩
      · rw [denOf_append, denOf_eq_zero_of_all_none E xs hall1, zero_add, hl2]
      · rw [numOf_append, numOf_eq_zero_of_all_none E xs hall1, zero_add, ha2]
  | some mm1 =>
    obtain ⟨hl1, ha1⟩ := hs
    dsimp only at hl1 ha1
    cases m2 with
    | none =>
      obtain ⟨hall2, hl2, ha2⟩ := ht
      dsimp only [omerge]
      refine ⟨?_, ?_⟩
      · rw [denOf_append, denOf_eq_zero_of_all_none E ys hall2, add_zero, hl1]
      · rw [numOf_append, numOf_eq_zero_of_all_none E ys hall2, add_zero, ha1]
    | some mm2 =>
      obtain ⟨hl2, ha2⟩ := ht
      dsimp only at hl2 ha2
      dsimp only [omerge]
      refine ⟨?_, ?_⟩
      · calc (l1 * E (mm1 - max mm1 mm2) + l2 * E (mm2 - max mm1 mm2)) * E (max mm1 mm2)
            = l1 * (E (mm1 - max mm1 mm2) * E (max mm1 mm2))
              + l2 * (E (mm2 - max mm1 mm2) * E (max mm1 mm2)) := by ring
          _ = l1 * E mm1 + l2 * E mm2 := by rw [key, key]
          _ = denOf E xs + denOf E ys := by rw [hl1, hl2]
          _ = denOf E (xs ++ ys) := (denOf_append E xs ys).symm
      · calc (a1 * E (mm1 - max mm1 mm2) + a2 * E (mm2 - max mm1 mm2)) * E (max mm1 mm2)
            = a1 * (E (mm1 - max mm1 mm2) * E (max mm1 mm2))
              + a2 * (E (mm2 - max mm1 mm2) * E (max mm1 mm2)) := by ring
          _ = a1 * E mm1 + a2 * E mm2 := by rw [key, key]
          _ = numOf E xs + numOf E ys := by rw [ha1, ha2]
          _ = numOf E (xs ++ ys) := (numOf_append E xs ys).symm

theorem ReprOf_foldl_omerge (E : ℚ → ℚ) (hmul : ∀ a b, E (a + b) = E a * E b) :
    ∀ (tiles : List (List SV)) (seen : List SV) (acc : OState), ReprOf E seen acc →
      ReprOf E (seen ++ tiles.flatten) ((tiles.map (tileStats E)).foldl (omerge E) acc) := by
  intro tiles
  induction tiles with
  | nil =>
    intro seen acc h
    simpa using h
  | cons tile rest ih =>
    intro seen acc h
    have h2 := ReprOf_omerge E hmul seen tile acc (tileStats E tile) h
      (ReprOf_tileStats E hmul tile)
    have h3 := ih (seen ++ tile) (omerge E acc (tileStats E tile)) h2
    rw [List.append_assoc] at h3
    simpa using h3

/-- Online-softmax correctness for one row: on any row with at least one
unmasked entry, the fused tile-merge evaluation equals the naive materialized
masked softmax contraction. -/
theorem onlineRow_eq_softAttendC (E : ℚ → ℚ) (hE : ∀ x, 0 < E x)
    (hmul : ∀ a b, E (a + b) = E a * E b) (tiles : List (List SV))
    (e : SV) (he : e ∈ tiles.flatten) (s : ℚ) (hs : e.1 = some s) :
    onlineRow E tiles = softAttendC E tiles.flatten := by
  have hst := ReprOf_foldl_omerge E hmul tiles [] ⟨none, 0, 0⟩
    ⟨fun e2 h2 => absurd h2 (List.not_mem_nil e2), rfl, rfl⟩
  rw [List.nil_append] at hst
  have hall : tiles.flatten.all (fun e2 => e2.1.isNone) = false := by
    cases h3 : tiles.flatten.all (fun e2 => e2.1.isNone) with
    | false => rfl
    | true =>
      rw [List.all_eq_true] at h3
      have h4 := h3 e he
      rw [hs] at h4
      simp at h4
  rw [softAttendC_eq, if_neg (by rw [hall]; exact Bool.false_ne_true)]
  rcases hfold : (tiles.map (tileStats E)).foldl (omerge E) (⟨none, 0, 0⟩ : OState)
    with ⟨m, l, a⟩
  rw [hfold] at hst
  unfold onlineRow
  rw [hfold]
  cases m with
  | none =>
    obtain ⟨hallnone, _, _⟩ := hst
    rw [hallnone e he] at hs
    exact Option.noConfusion hs
  | some m0 =>
    obtain ⟨hl, ha⟩ := hst
    dsimp only at hl ha ⊢
    have hden := denOf_pos E hE tiles.flatten e he s hs
    have hEm : (0 : ℚ) < E m0 := hE m0
    rw [← hl, ← ha, mul_div_mul_right _ _ (ne_of_gt hEm)]


/-- Four-axis tensor: batch, head, position, feature. -/
abbrev T4 := List (List Seq)

/-- Selected-block index tensor: batch, kv head, position, slot. -/
abbrev IdxT := List (List (List (List ℕ)))

/-- Validity-mask tensor: batch, kv head, position, slot. -/
abbrev MskT := List (List (List (List Bool)))

/-- The causal-diagonal tile of one query row (test lines 36-40): block
`w = p / bs`, intra-block index `iIn = p % bs`, the `triu(1)` mask sentinels
entries with `j > iIn`; each score is paired with component `t` of the
corresponding diagonal value vector (`q` is pre-scaled, line 32, realized here
as the factor `scale` on each dot product). -/
def diagSV (scale : ℚ) (qrow : Vec) (kBlk vBlk : Seq) (iIn t : ℕ) : List SV :=
  (List.range kBlk.length).map (fun j =>
    (if iIn < j then none else some (scale * dot qrow (kBlk.getD j [])),
     (vBlk.getD j []).getD t 0))

/-- One gathered selected-block tile (test lines 47-68): the whole block is
masked iff the slot's validity flag is false
(`torch.where(mask[..., None], bsim, -max)` — block granularity). -/
def slotSV (scale : ℚ) (qrow : Vec) (kBlk vBlk : Seq) (valid : Bool) (t : ℕ) : List SV :=
  (List.range kBlk.length).map (fun j =>
    (if valid then some (scale * dot qrow (kBlk.getD j [])) else none,
     (vBlk.getD j []).getD t 0))

/-- The candidate tiles of one query row: the causal-diagonal tile followed by
the gathered selected-block tiles in slot order — the flattening of
`torch.cat((sim, bsim), dim = -2)` by the final rearrange (test lines 62-63),
aligned with the concatenated values (lines 67-68). -/
def rowTiles (scale : ℚ) (bs : ℕ) (kBlks vBlks : List Seq) (qrow : Vec) (p : ℕ)
    (idxRow : List ℕ) (mRow : List Bool) (t : ℕ) : List (List SV) :=
  diagSV scale qrow (kBlks.getD (p / bs) []) (vBlks.getD (p / bs) []) (p % bs) t ::
  List.zipWith (fun ix m => slotSV scale qrow (kBlks.getD ix []) (vBlks.getD ix []) m t)
    idxRow mRow

/-- `regular_attend` (test lines 15-80): the naive reference.  Per batch `b`,
query head `qh` (kv head `h = qh / g`, einops `(h g)` split), query position `p`
and output component `t`, materialize the masked score row over the candidate
set and contract its softmax with the gathered values. -/
def regularAttend (E : ℚ → ℚ) (scale : ℚ) (bs d g : ℕ) (q k v : T4)
    (inds : IdxT) (msk : MskT) : T4 :=
  (List.range q.length).map (fun b =>
    (List.range ((q.getD b []).length)).map (fun qh =>
      (List.range (((q.getD b []).getD qh []).length)).map (fun p =>
        (List.range d).map (fun t =>
          softAttendC E
            ((rowTiles scale bs
              (takeBlocks bs ((((k.getD b []).getD (qh / g) []).length) / bs)
                ((k.getD b []).getD (qh / g) []))
              (takeBlocks bs ((((v.getD b []).getD (qh / g) []).length) / bs)
                ((v.getD b []).getD (qh / g) []))
              (((q.getD b []).getD qh []).getD p []) p
              (((inds.getD b []).getD (qh / g) []).getD p [])
              (((msk.getD b []).getD (qh / g) []).getD p []) t).flatten)))))

/-- Modelled from the spec (sections 4.7, 5 and 6): the fused evaluator
(`native_sparse_attend`, not among the sources) computes the same candidate
structure but reduces each row by the streaming online-softmax merge over its
tiles instead of materializing the row. -/
def fusedAttend (E : ℚ → ℚ) (scale : ℚ) (bs d g : ℕ) (q k v : T4)
    (inds : IdxT) (msk : MskT) : T4 :=
  (List.range q.length).map (fun b =>
    (List.range ((q.getD b []).length)).map (fun qh =>
      (List.range (((q.getD b []).getD qh []).length)).map (fun p =>
        (List.range d).map (fun t =>
          onlineRow E
            (rowTiles scale bs
              (takeBlocks bs ((((k.getD b []).getD (qh / g) []).length) / bs)
                ((k.getD b []).getD (qh / g) []))
              (takeBlocks bs ((((v.getD b []).getD (qh / g) []).length) / bs)
                ((v.getD b []).getD (qh / g) []))
              (((q.getD b []).getD qh []).getD p []) p
              (((inds.getD b []).getD (qh / g) []).getD p [])
              (((msk.getD b []).getD (qh / g) []).getD p []) t)))))

/-- Shape discipline of the fused-kernel interface (spec section 6 and the
asserts of the test): positive block size, `g` query heads per kv head,
matching batch counts, per-pair equal sequence lengths that are divisible by
the block size, and value shapes matching key shapes. -/
def AttendWf (bs g : ℕ) (q k v : T4) : Prop :=
  0 < bs ∧ 0 < g ∧ k.length = q.length ∧ v.length = q.length ∧
  ∀ b ∈ List.range q.length,
    (q.getD b []).length = g * (k.getD b []).length ∧
    (v.getD b []).length = (k.getD b []).length ∧
    (∀ qh ∈ List.range ((q.getD b []).length),
      ((q.getD b []).getD qh []).length = ((k.getD b []).getD (qh / g) []).length) ∧
    (∀ h ∈ List.range ((k.getD b []).length),
      bs ∣ ((k.getD b []).getD h []).length ∧
      ((v.getD b []).getD h []).length = ((k.getD b []).getD h []).length)

theorem takeBlocks_getD_length (bs : ℕ) (_hbs : 0 < bs) :
    ∀ (nb w : ℕ) (x : Seq), x.length = nb * bs → w < nb →
      ((takeBlocks bs nb x).getD w []).length = bs := by
  intro nb
  induction nb with
  | zero =>
    intro w x _ hw
    exact absurd hw (Nat.not_lt_zero w)
  | succ nb ih =>
    intro w x hx hw
    cases w with
    | zero =>
      show (x.take bs).length = bs
      rw [List.length_take]
      have hle : bs ≤ x.length := by
        rw [hx, Nat.succ_mul]
        exact Nat.le_add_left bs (nb * bs)
      omega
    | succ w =>
      show ((takeBlocks bs nb (x.drop bs)).getD w []).length = bs
      refine ih w (x.drop bs) ?_ (Nat.lt_of_succ_lt_succ hw)
      rw [List.length_drop, hx, Nat.succ_mul]
      omega

theorem rowTiles_has_unmasked (scale : ℚ) (bs : ℕ) (kBlks vBlks : List Seq)
    (qrow : Vec) (p : ℕ) (idxRow : List ℕ) (mRow : List Bool) (t : ℕ)
    (hlen : p % bs < (kBlks.getD (p / bs) []).length) :
    ∃ e ∈ (rowTiles scale bs kBlks vBlks qrow p idxRow mRow t).flatten,
      ∃ s, e.1 = some s := by
  refine ⟨(some (scale * dot qrow ((kBlks.getD (p / bs) []).getD (p % bs) [])),
    ((vBlks.getD (p / bs) []).getD (p % bs) []).getD t 0), ?_, _, rfl⟩
  rw [rowTiles, List.flatten_cons]
  refine List.mem_append_left _ ?_
  rw [diagSV]
  exact List.mem_map.mpr ⟨p % bs, List.mem_range.mpr hlen,
    by rw [if_neg (lt_irrefl (p % bs))]⟩

/-- The fused evaluator computes the same function as the naive reference on
every well-formed input. -/
theorem fusedAttend_eq_regularAttend (E : ℚ → ℚ) (hE : ∀ x, 0 < E x)
    (hmul : ∀ a b, E (a + b) = E a * E b) (scale : ℚ) (bs d g : ℕ)
    (q k v : T4) (inds : IdxT) (msk : MskT) (hwf : AttendWf bs g q k v) :
    fusedAttend E scale bs d g q k v inds msk
      = regularAttend E scale bs d g q k v inds msk := by
  obtain ⟨hbs, hg, hkq, hvq, hper⟩ := hwf
  unfold fusedAttend regularAttend
  refine List.map_congr_left ?_
  intro b hb
  refine List.map_congr_left ?_
  intro qh hqh
  refine List.map_congr_left ?_
  intro p hp
  refine List.map_congr_left ?_
  intro t _
  rw [List.mem_range] at hb hqh hp
  obtain ⟨hqlen, hvlen, hqrow, hkrow⟩ := hper b (List.mem_range.mpr hb)
  have hh : qh / g < (k.getD b []).length := by
    rw [Nat.div_lt_iff_lt_mul hg]
    calc qh < (q.getD b []).length := hqh
      _ = g * (k.getD b []).length := hqlen
      _ = (k.getD b []).length * g := mul_comm _ _
  obtain ⟨hdvd, _⟩ := hkrow (qh / g) (List.mem_range.mpr hh)
  have hklen : ((k.getD b []).getD (qh / g) []).length
      = (((k.getD b []).getD (qh / g) []).length / bs) * bs :=
    (Nat.div_mul_cancel hdvd).symm
  have hplt : p < ((k.getD b []).getD (qh / g) []).length := by
    rw [← hqrow qh (List.mem_range.mpr hqh)]
    exact hp
  have hwlt : p / bs < ((k.getD b []).getD (qh / g) []).length / bs := by
    rw [Nat.div_lt_iff_lt_mul hbs]
    rw [hklen] at hplt
    exact hplt
  have hblk : ((takeBlocks bs (((k.getD b []).getD (qh / g) []).length / bs)
      ((k.getD b []).getD (qh / g) [])).getD (p / bs) []).length = bs :=
    takeBlocks_getD_length bs hbs _ _ _ hklen hwlt
  have hlen : p % bs < ((takeBlocks bs (((k.getD b []).getD (qh / g) []).length / bs)
      ((k.getD b []).getD (qh / g) [])).getD (p / bs) []).length := by
    rw [hblk]
    exact Nat.mod_lt p hbs
  obtain ⟨e, he, ss, hss⟩ := rowTiles_has_unmasked scale bs
    (takeBlocks bs (((k.getD b []).getD (qh / g) []).length / bs)
      ((k.getD b []).getD (qh / g) []))
    (takeBlocks bs (((v.getD b []).getD (qh / g) []).length / bs)
      ((v.getD b []).getD (qh / g) []))
    (((q.getD b []).getD qh []).getD p []) p
    (((inds.getD b []).getD (qh / g) []).getD p [])
    (((msk.getD b []).getD (qh / g) []).getD p []) t hlen
  exact onlineRow_eq_softAttendC E hE hmul _ e he ss hss

/-- Total sum of all output components: the scalar loss `out.sum()` used for
the gradient check in the test. -/
def sumAll (x : T4) : ℚ :=
  (x.map (fun xb => (xb.map (fun xh => (xh.map List.sum).sum)).sum)).sum

/-- C4 (confirmed): on every well-formed configuration — arbitrary batch,
grouped query heads (`g` per kv head), sequence length divisible by the block
size, selected indices and validity mask — the fused online-softmax evaluator
agrees with the naive fully materialized reference exactly, hence within the
1e-2 absolute tolerance of the test (which uses batch 1, 4 query heads, 2 kv
heads, sequence 512, block 16, one selected block fixed to 0, all-valid mask);
and the scalar loss agrees as a function of (Q, K, V) at every well-formed
input, so gradients of the loss with respect to Q, K and V — derivatives of
equal functions — agree as well. -/
theorem claim4_fused_naive_equivalence (E : ℚ → ℚ) (hE : ∀ x, 0 < E x)
    (hmul : ∀ a b, E (a + b) = E a * E b) (scale : ℚ) (bs d g : ℕ)
    (q k v : T4) (inds : IdxT) (msk : MskT) (hwf : AttendWf bs g q k v) :
    fusedAttend E scale bs d g q k v inds msk
      = regularAttend E scale bs d g q k v inds msk
  ∧ (∀ b qh p t : ℕ,
      |((((fusedAttend E scale bs d g q k v inds msk).getD b []).getD qh []).getD p []).getD t 0
        - ((((regularAttend E scale bs d g q k v inds msk).getD b []).getD qh []).getD p []).getD t 0|
        ≤ 1 / 100)
  ∧ (∀ (q2 k2 v2 : T4) (inds2 : IdxT) (msk2 : MskT), AttendWf bs g q2 k2 v2 →
      sumAll (fusedAttend E scale bs d g q2 k2 v2 inds2 msk2)
        = sumAll (regularAttend E scale bs d g q2 k2 v2 inds2 msk2)) := by
  refine ⟨fusedAttend_eq_regularAttend E hE hmul scale bs d g q k v inds msk hwf, ?_, ?_⟩
  · intro b qh p t
    rw [fusedAttend_eq_regularAttend E hE hmul scale bs d g q k v inds msk hwf,
      sub_self, abs_zero]
    norm_num
  · intro q2 k2 v2 inds2 msk2 hwf2
    rw [fusedAttend_eq_regularAttend E hE hmul scale bs d g q2 k2 v2 inds2 msk2 hwf2]

/-- Witness for C4: constant-one exponential, one batch, two query heads over
one kv head (group size 2), block size 1, one selected block with a valid
mask. -/
theorem claim4_fused_naive_equivalence_witness :
    fusedAttend E1 1 1 1 2 [[[[1]], [[2]]]] [[[[3]]]] [[[[5]]]] [[[[0]]]] [[[[true]]]]
      = regularAttend E1 1 1 1 2 [[[[1]], [[2]]]] [[[[3]]]] [[[[5]]]] [[[[0]]]]
        [[[[true]]]] :=
  (claim4_fused_naive_equivalence E1 (fun x => by norm_num [E1])
    (fun a b => by norm_num [E1]) 1 1 1 2 [[[[1]], [[2]]]] [[[[3]]]] [[[[5]]]]
    [[[[0]]]] [[[[true]]]] (by unfold AttendWf; decide)).1

end NSA
